import Mathlib

set_option autoImplicit false

/-
Verification development for lechuckroh/exif-rename (src/main.rs).

The program derives a new filename for a photo from a sidecar text file of
EXIF metadata (`key: value` lines) and a user-supplied naming pattern.

Embedding notes:
* Rust's `HashMap<String, String>` (the `Vars` type alias of the source) is
  embedded as an association list with unique keys; `varsInsert` replaces any
  existing binding of the key, `varsGet` looks a key up, `varsExtend` inserts
  every entry of the second map into the first (the semantics of
  `HashMap::extend`).  All observable properties go through `varsGet`,
  `varsKeys` and `List.length`, which are insensitive to the bucket order of
  the real hash map.
* `chrono`'s parsing of the two format strings `%Y:%m:%d %H:%M:%S` and
  `%Y:%m:%d %H:%M:%S%z` is embedded directly (numeric fields skip leading
  whitespace and consume 1 up to `width` digits; literals match exactly; a
  format-string space matches any run of whitespace; trailing input is an
  error; field ranges are validated).  Leap seconds (second 60) are outside
  the model.  `DateTime::parse_from_str(..).naive_local()` returns the clock
  fields exactly as written in the string (the offset is consumed but the
  instant is rendered back in the same offset), which is how
  `parseWithOffset` is stated.
* The `regex` crate pattern `(.*\D)(\d*)\.([a-zA-Z0-9]+)` used by
  `create_vars_from_filename` is embedded as `findMatch`: leftmost-first
  match, greedy `.*` (which does not cross a newline), `\D` any non-digit,
  then a maximal digit run, a literal dot and a maximal nonempty alphanumeric
  run.
* The `strfmt` template formatter is spec-modelled (its crate source is not
  part of this repository); see `strfmtGo`.
-/

/-! ## The variable mapping (`Vars = HashMap<String, String>`) -/

abbrev Vars := List (String × String)

/-- `HashMap::get`: the value bound to key `k`, if any. -/
def varsGet (m : Vars) (k : String) : Option String :=
  (m.find? (fun p => p.1 == k)).map (fun p => p.2)

/-- `HashMap::insert`: bind `k` to `v`, replacing any previous binding. -/
def varsInsert (m : Vars) (k v : String) : Vars :=
  (k, v) :: m.filter (fun p => !(p.1 == k))

/-- `HashMap::extend`: insert every entry of `other` into `m`. -/
def varsExtend (m other : Vars) : Vars :=
  other.foldl (fun acc p => varsInsert acc p.1 p.2) m

/-- The key set of a mapping. -/
def varsKeys (m : Vars) : List String :=
  m.map (fun p => p.1)

/-- Keys of a mapping are pairwise distinct (an invariant of every map the
program builds, `HashMap` keys being unique). -/
def varsNodupKeys (m : Vars) : Prop :=
  (varsKeys m).Nodup

instance (m : Vars) : Decidable (varsNodupKeys m) := by
  unfold varsNodupKeys; infer_instance

/-! ## Metadata line parsing (`split_exif_line`, `read_exif_file`) -/

/-- Rust `str::trim` on a character list (both ends, whitespace). -/
def trimChars (l : List Char) : List Char :=
  ((l.dropWhile Char.isWhitespace).reverse.dropWhile Char.isWhitespace).reverse

/-- Rust `str::trim`. -/
def rustTrim (s : String) : String :=
  String.mk (trimChars s.data)

/-- Split a character list at the first colon: `s.splitn(2, ":")` produces two
tokens exactly when a colon occurs. -/
def splitAtFirstColon : List Char → Option (List Char × List Char)
  | [] => none
  | c :: rest =>
    if c = ':' then some ([], rest)
    else (splitAtFirstColon rest).map (fun p => (c :: p.1, p.2))

/-- `split_exif_line` of the source: split on the first colon, trim key and
value; `none` when the line has no colon. -/
def split_exif_line (s : String) : Option (String × String) :=
  (splitAtFirstColon s.data).map
    (fun p => (rustTrim (String.mk p.1), rustTrim (String.mk p.2)))

/-- Rust `str::lines` on the file content: split on newline characters,
dropping one trailing carriage return per line and a final empty segment. -/
def read_lines (content : String) : List String :=
  let parts := content.data.splitOn '\n'
  let parts := match parts.getLast? with
    | some [] => parts.dropLast
    | _ => parts
  parts.map (fun l => String.mk (if l.getLast? = some '\r' then l.dropLast else l))

/-- `read_exif_file` of the source, on the text content of the metadata file:
insert the split of every line that has a colon, in order (later duplicate
keys overwrite earlier ones). -/
def read_exif_file (content : String) : Vars :=
  (read_lines content).foldl
    (fun vars line =>
      match split_exif_line line with
      | some kv => varsInsert vars kv.1 kv.2
      | none => vars) []

/-! ## Calendar arithmetic (the `chrono` component accessors) -/

structure NaiveDateTime where
  year : Nat
  month : Nat
  day : Nat
  hour : Nat
  minute : Nat
  second : Nat
deriving DecidableEq, Repr

def isLeapYear (y : Nat) : Bool :=
  y % 4 = 0 && (y % 100 ≠ 0 || y % 400 = 0)

def daysInMonth (y m : Nat) : Nat :=
  if m = 2 then (if isLeapYear y then 29 else 28)
  else if m = 4 ∨ m = 6 ∨ m = 9 ∨ m = 11 then 30
  else 31

/-- Days of year `y` strictly before month `m` (months 1-based). -/
def daysBeforeMonth (y m : Nat) : Nat :=
  (List.range (m - 1)).foldl (fun acc i => acc + daysInMonth y (i + 1)) 0

/-- 1-based ordinal day of the year. -/
def dayOfYear (y m d : Nat) : Nat :=
  daysBeforeMonth y m + d

/-- Days of the proleptic Gregorian calendar strictly before January 1 of
year `y` (counting from year 0; year 0 is a leap year). -/
def daysBeforeYear (y : Nat) : Nat :=
  365 * y + (y + 3) / 4 - (y + 99) / 100 + (y + 399) / 400

/-- Day number of a date, with 0000-01-01 as day 0. -/
def dayNumber (y m d : Nat) : Nat :=
  daysBeforeYear y + dayOfYear y m d - 1

/-- Weekday index with 0 = Saturday (2000-01-01, day number 730485, is a
Saturday and 730485 is divisible by 7). -/
def weekdayIdx (y m d : Nat) : Nat :=
  dayNumber y m d % 7

/-- `chrono::Weekday`'s `Display`: the three-letter English abbreviation. -/
def weekdayName (y m d : Nat) : String :=
  match weekdayIdx y m d with
  | 0 => "Sat"
  | 1 => "Sun"
  | 2 => "Mon"
  | 3 => "Tue"
  | 4 => "Wed"
  | 5 => "Thu"
  | _ => "Fri"

/-- ISO weekday number, Monday = 1 .. Sunday = 7. -/
def isoWeekdayNum (y m d : Nat) : Nat :=
  (weekdayIdx y m d + 5) % 7 + 1

def isoWeekCorrection (y : Nat) : Nat :=
  (y + y / 4 - y / 100 + y / 400) % 7

def isoWeeksInYear (y : Nat) : Nat :=
  if isoWeekCorrection y = 4 ∨ isoWeekCorrection (y - 1) = 3 then 53 else 52

/-- ISO-8601 week number of the date (`chrono`'s `iso_week().week()`). -/
def isoWeek (y m d : Nat) : Nat :=
  let w := (dayOfYear y m d + 10 - isoWeekdayNum y m d) / 7
  if w < 1 then isoWeeksInYear (y - 1)
  else if isoWeeksInYear y < w then 1 else w

/-- `chrono`'s `Timelike::hour12().1`: the hour on the 1..12 clock (hours 0
and 12 are both rendered 12). -/
def hour12 (h : Nat) : Nat :=
  if h % 12 = 0 then 12 else h % 12

/-- Rust `format!` with the `{:02}` spec: decimal, zero-padded to width 2. -/
def pad2 (n : Nat) : String :=
  if n < 10 then "0" ++ toString n else toString n

/-! ## Timestamp parsing (`parse_datetime_from_string`) -/

def digitVal (c : Char) : Nat := c.toNat - 48

/-- `chrono`'s `scan::number(s, 1, width)`: consume greedily up to `width`
digits, at least one. -/
def takeDigits (width : Nat) (l : List Char) : Option (Nat × List Char) :=
  let run := (l.takeWhile Char.isDigit).take width
  if run.isEmpty then none
  else some (run.foldl (fun acc c => acc * 10 + digitVal c) 0, l.drop run.length)

/-- A numeric item of a `chrono` format string: leading whitespace is
skipped, then 1 up to `width` digits are read. -/
def parseNumItem (width : Nat) (l : List Char) : Option (Nat × List Char) :=
  takeDigits width (l.dropWhile Char.isWhitespace)

/-- A literal item of a `chrono` format string: the exact character. -/
def expectChar (c : Char) (l : List Char) : Option (List Char) :=
  match l with
  | d :: rest => if d = c then some rest else none
  | [] => none

/-- Validation performed by `chrono` when assembling the parsed fields into a
`NaiveDateTime` (leap seconds are outside the model). -/
def mkNaiveDateTime (y mo d h mi s : Nat) : Option NaiveDateTime :=
  if 1 ≤ mo ∧ mo ≤ 12 ∧ 1 ≤ d ∧ d ≤ daysInMonth y mo ∧ h ≤ 23 ∧ mi ≤ 59 ∧ s ≤ 59 then
    some ⟨y, mo, d, h, mi, s⟩
  else none

/-- The shared item sequence of both format strings:
`%Y ':' %m ':' %d ' ' %H ':' %M ':' %S`, returning the remaining input. -/
def parseDateTimeCore (l : List Char) : Option (NaiveDateTime × List Char) := do
  let (y, l) ← parseNumItem 4 l
  let l ← expectChar ':' l
  let (mo, l) ← parseNumItem 2 l
  let l ← expectChar ':' l
  let (d, l) ← parseNumItem 2 l
  let l := l.dropWhile Char.isWhitespace
  let (h, l) ← parseNumItem 2 l
  let l ← expectChar ':' l
  let (mi, l) ← parseNumItem 2 l
  let l ← expectChar ':' l
  let (s, l) ← parseNumItem 2 l
  let dt ← mkNaiveDateTime y mo d h mi s
  some (dt, l)

/-- `NaiveDateTime::parse_from_str(s, "%Y:%m:%d %H:%M:%S")`: the whole input
must be consumed. -/
def parseNaiveNoOffset (s : String) : Option NaiveDateTime :=
  match parseDateTimeCore s.data with
  | some (dt, rest) => if rest.isEmpty then some dt else none
  | none => none

/-- The `%z` item: optional whitespace, a mandatory sign, two hour digits, an
optional colon, two minute digits; the offset magnitude must be below one
day. -/
def parseOffsetItem (l : List Char) : Option (Int × List Char) :=
  match l.dropWhile Char.isWhitespace with
  | [] => none
  | c :: rest =>
    let sign : Option Bool :=
      if c = '+' then some false else if c = '-' then some true else none
    match sign with
    | none => none
    | some neg =>
      match rest with
      | h1 :: h2 :: rest2 =>
        if h1.isDigit ∧ h2.isDigit then
          let hh := digitVal h1 * 10 + digitVal h2
          let rest3 := match rest2 with
            | ':' :: r => r
            | _ => rest2
          match rest3 with
          | m1 :: m2 :: rest4 =>
            if m1.isDigit ∧ m2.isDigit then
              let secs := (hh * 3600 + (digitVal m1 * 10 + digitVal m2) * 60 : Nat)
              if secs < 86400 then
                some ((if neg then -(secs : Int) else (secs : Int)), rest4)
              else none
            else none
          | _ => none
        else none
      | _ => none

/-- Modelled from the spec: `DateTime::parse_from_str(s, "%Y:%m:%d %H:%M:%S%z")`
followed by `.naive_local()` — the `chrono` crate is not part of this
repository's sources.  Per the spec, the offset suffix is consumed only to
anchor the absolute instant and the naive local clock fields (exactly the
fields written in the string) are what get formatted, so the parse returns
those literal clock fields together with the parsed offset in seconds. -/
def parseWithOffset (s : String) : Option (NaiveDateTime × Int) :=
  match parseDateTimeCore s.data with
  | some (dt, rest) =>
    match parseOffsetItem rest with
    | some (off, rest2) => if rest2.isEmpty then some (dt, off) else none
    | none => none
  | none => none

/-- `parse_datetime_from_string` of the source: first the offset-less format,
then, on failure, the `%z` format (keeping the naive local clock fields);
`none` when both fail (a diagnostic is printed, no error escalates). -/
def parse_datetime_from_string (s : String) : Option NaiveDateTime :=
  match parseNaiveNoOffset s with
  | some dt => some dt
  | none =>
    match parseWithOffset s with
    | some (dt, _) => some dt
    | none => none

/-! ## Derived date/time variables (`create_vars_from_create_date`) -/

/-- The insertion chain of `create_vars_from_create_date` once the timestamp
has been parsed. -/
def buildDateVars (dt : NaiveDateTime) : Vars :=
  let vars : Vars := []
  let vars := varsInsert vars "Y" (toString dt.year)
  let vars := varsInsert vars "y" (toString (dt.year % 100))
  let vars := varsInsert vars "m" (pad2 dt.month)
  let vars := varsInsert vars "D" (pad2 dt.day)
  let vars := varsInsert vars "t" (pad2 dt.hour ++ pad2 dt.minute ++ pad2 dt.second)
  let vars := varsInsert vars "H" (pad2 dt.hour)
  let vars := varsInsert vars "h" (pad2 (hour12 dt.hour))
  let vars := varsInsert vars "M" (pad2 dt.minute)
  let vars := varsInsert vars "S" (pad2 dt.second)
  let vars := varsInsert vars "W" (pad2 (isoWeek dt.year dt.month dt.day))
  varsInsert vars "a" (weekdayName dt.year dt.month dt.day)

/-- `create_vars_from_create_date` of the source. -/
def create_vars_from_create_date (create_date : String) : Vars :=
  match parse_datetime_from_string create_date with
  | some dt => buildDateVars dt
  | none => []

/-! ## Derived filename variables (`create_vars_from_filename`) -/

/-- Matchable by `[a-zA-Z0-9]` (ASCII letters and digits). -/
def isAlnumAscii (c : Char) : Bool := c.isAlphanum

/-- The deterministic tail of the regex `(.*\D)(\d*)\.([a-zA-Z0-9]+)` right
after the character matched by `\D`: a maximal digit run, a literal dot and a
maximal, nonempty alphanumeric run.  (Both runs are deterministic: fewer
digits would put a digit where the dot is required, and nothing follows the
last group, so greediness takes the maximal runs.) -/
def tailMatch (l : List Char) : Option (List Char × List Char) :=
  match l.dropWhile Char.isDigit with
  | d :: rest2 =>
    if d = '.' then
      if (rest2.takeWhile isAlnumAscii).isEmpty then none
      else some (l.takeWhile Char.isDigit, rest2.takeWhile isAlnumAscii)
    else none
  | [] => none

/-- A match of `(.*\D)(\d*)\.([a-zA-Z0-9]+)` anchored at the head of `l`,
with the greedy (backtracking-priority) choice for `.*`: the innermost
(longest-prefix) alternative is preferred, and a character consumed by `.*`
may not be a newline. -/
def tryAt : List Char → Option (List Char × List Char × List Char)
  | [] => none
  | c :: rest =>
    match (if c = '\n' then none else tryAt rest) with
    | some (f, r, e) => some (c :: f, r, e)
    | none =>
      if c.isDigit then none
      else (tailMatch rest).map (fun p => ([c], p.1, p.2))

/-- `Regex::captures`: the leftmost match of the pattern, with leftmost-first
semantics. -/
def findMatch : List Char → Option (List Char × List Char × List Char)
  | [] => none
  | c :: rest =>
    match tryAt (c :: rest) with
    | some m => some m
    | none => findMatch rest

/-- `create_vars_from_filename` of the source: on a match, bind `f` to the
base-name group, `r` to the digit-run group and `e` to the extension group;
otherwise produce no variables. -/
def create_vars_from_filename (filename : String) : Vars :=
  match findMatch filename.data with
  | some (f, r, e) =>
    varsInsert (varsInsert (varsInsert [] "f" (String.mk f)) "r" (String.mk r))
      "e" (String.mk e)
  | none => []

/-! ## The variable merger (`extend_vars`) -/

/-- First step of `extend_vars`: derive date/time variables from `CreateDate`
when present. -/
def dateStep (exif_vars : Vars) : Vars :=
  match varsGet exif_vars "CreateDate" with
  | some create_date => varsExtend [] (create_vars_from_create_date create_date)
  | none => []

/-- Second step of `extend_vars`: derive filename variables from `FileName`
when present. -/
def fileStep (exif_vars : Vars) : Vars :=
  match varsGet exif_vars "FileName" with
  | some filename => varsExtend (dateStep exif_vars) (create_vars_from_filename filename)
  | none => dateStep exif_vars

/-- `extend_vars` of the source: derive date/time variables from `CreateDate`,
filename variables from `FileName`, and alias `Model` as `T2` (the three
statements of the source function, as a composition of named steps). -/
def extend_vars (exif_vars : Vars) : Vars :=
  match varsGet exif_vars "Model" with
  | some model => varsInsert (fileStep exif_vars) "T2" model
  | none => fileStep exif_vars

/-- The fixed short codes a derived variable set may use. -/
def allowedDerivedKeys : List String :=
  ["Y", "y", "m", "D", "t", "H", "h", "M", "S", "W", "a", "f", "r", "e", "T2"]

/-! ## The template formatter (`strfmt`) -/

inductive FmtError where
  | invalid
  | keyError (name : String)
deriving DecidableEq, Repr

def lbrace : Char := Char.ofNat 123
def rbrace : Char := Char.ofNat 125

/-- Modelled from the spec: the template formatter (the `strfmt` crate the
source unwraps is not part of this repository's sources).  Per the spec a
single pass scans the pattern for brace-delimited placeholder tokens and
resolves each against the fixed mapping; a referenced name absent from the
mapping is a formatting error naming that variable.  The open stray-brace
policy of the spec is resolved as the underlying formatter does: a doubled
brace is an escaped literal brace, a single unmatched brace is an invalid
pattern error. -/
def strfmtGo (vars : Vars) : List Char → Option (List Char) → Except FmtError (List Char)
  | [], mode =>
    match mode with
    | none => .ok []
    | some _ => .error .invalid
  | c :: rest, mode =>
    match mode with
    | none =>
      if c = lbrace then strfmtGo vars rest (some [])
      else if c = rbrace then
        match rest with
        | [] => .error .invalid
        | d :: rest2 =>
          if d = rbrace then (strfmtGo vars rest2 none).map (fun out => rbrace :: out)
          else .error .invalid
      else (strfmtGo vars rest none).map (fun out => c :: out)
    | some acc =>
      if c = rbrace then
        match varsGet vars (String.mk acc.reverse) with
        | some v => (strfmtGo vars rest none).map (fun out => v.data ++ out)
        | none => .error (.keyError (String.mk acc.reverse))
      else if c = lbrace then
        match acc with
        | [] => (strfmtGo vars rest none).map (fun out => lbrace :: out)
        | _ => strfmtGo vars rest (some (c :: acc))
      else strfmtGo vars rest (some (c :: acc))

/-- `strfmt(pattern, vars)`. -/
def strfmt (pattern : String) (vars : Vars) : Except FmtError String :=
  (strfmtGo vars pattern.data none).map String.mk

/-- `format_filename` of the source unwraps the formatter result (a panic on
error is modelled as `none`). -/
def format_filename (pattern : String) (vars : Vars) : Option String :=
  (strfmt pattern vars).toOption

/-- The pattern is brace-well-formed: every brace is part of a placeholder
token or of a doubled escape.  Same scan as `strfmtGo`. -/
def patternOkLoop : List Char → Option (List Char) → Bool
  | [], mode => mode.isNone
  | c :: rest, mode =>
    match mode with
    | none =>
      if c = lbrace then patternOkLoop rest (some [])
      else if c = rbrace then
        match rest with
        | [] => false
        | d :: rest2 => if d = rbrace then patternOkLoop rest2 none else false
      else patternOkLoop rest none
    | some acc =>
      if c = rbrace then patternOkLoop rest none
      else if c = lbrace then
        match acc with
        | [] => patternOkLoop rest none
        | _ => patternOkLoop rest (some (c :: acc))
      else patternOkLoop rest (some (c :: acc))

def patternOk (l : List Char) : Bool :=
  patternOkLoop l none

/-- The placeholder names a pattern references, in scan order (the scan stops
at a stray brace). -/
def refNamesLoop : List Char → Option (List Char) → List String
  | [], _ => []
  | c :: rest, mode =>
    match mode with
    | none =>
      if c = lbrace then refNamesLoop rest (some [])
      else if c = rbrace then
        match rest with
        | [] => []
        | d :: rest2 => if d = rbrace then refNamesLoop rest2 none else []
      else refNamesLoop rest none
    | some acc =>
      if c = rbrace then String.mk acc.reverse :: refNamesLoop rest none
      else if c = lbrace then
        match acc with
        | [] => refNamesLoop rest none
        | _ => refNamesLoop rest (some (c :: acc))
      else refNamesLoop rest (some (c :: acc))

def refNames (l : List Char) : List String :=
  refNamesLoop l none

/-! ## End-to-end and much-used concrete data -/

/-- The raw metadata record of the source's end-to-end test. -/
def exifRecordC1 : Vars :=
  [("CreateDate", "2023:09:08 18:56:54"), ("FileName", "IMG_9876.JPG"),
   ("Model", "iPhone 14")]

/-- The key a metadata line yields (text before the first colon, trimmed). -/
def lineKey (line : String) : String :=
  ((split_exif_line line).map Prod.fst).getD ""

/-- The value a metadata line yields (text after the first colon, trimmed). -/
def lineVal (line : String) : String :=
  ((split_exif_line line).map Prod.snd).getD ""

/-! ## Association-map helper lemmas -/

theorem find?_filter_of_imp {α : Type} (l : List α) (p q : α → Bool)
    (h : ∀ a, p a = true → q a = true) :
    (l.filter q).find? p = l.find? p := by
  induction l with
  | nil => rfl
  | cons a t ih =>
    by_cases hq : q a = true
    · rw [List.filter_cons_of_pos hq]
      by_cases hp : p a = true
      · rw [List.find?_cons_of_pos _ hp, List.find?_cons_of_pos _ hp]
      · rw [List.find?_cons_of_neg _ hp, List.find?_cons_of_neg _ hp, ih]
    · have hp : ¬p a = true := by
        intro hpa
        exact hq (h a hpa)
      rw [List.filter_cons_of_neg (by simpa using hq), List.find?_cons_of_neg _ hp, ih]

theorem varsGet_insert_self (m : Vars) (k v : String) :
    varsGet (varsInsert m k v) k = some v := by
  simp [varsGet, varsInsert]

theorem varsGet_insert_ne (m : Vars) (k v k' : String) (hne : k' ≠ k) :
    varsGet (varsInsert m k v) k' = varsGet m k' := by
  unfold varsGet varsInsert
  rw [List.find?_cons_of_neg _ (by simpa using fun h => hne h.symm)]
  rw [find?_filter_of_imp]
  intro p hp
  simp only [beq_iff_eq] at hp
  simp [hp, hne]

theorem varsGet_eq_none_iff (m : Vars) (k : String) :
    varsGet m k = none ↔ k ∉ varsKeys m := by
  unfold varsGet varsKeys
  rw [Option.map_eq_none', List.find?_eq_none]
  constructor
  · intro h hk
    obtain ⟨p, hp, hpk⟩ := List.mem_map.mp hk
    exact absurd (by simpa using hpk) (by simpa using h p hp)
  · intro h p hp
    simp only [beq_iff_eq]
    intro hpk
    exact h (List.mem_map.mpr ⟨p, hp, hpk⟩)

theorem varsExtend_cons (a : Vars) (p : String × String) (b : Vars) :
    varsExtend a (p :: b) = varsExtend (varsInsert a p.1 p.2) b := rfl

theorem varsNodupKeys_cons {p : String × String} {b : Vars}
    (h : varsNodupKeys (p :: b)) : p.1 ∉ varsKeys b ∧ varsNodupKeys b := by
  simpa [varsNodupKeys, varsKeys] using h

theorem varsGet_cons_ne {p : String × String} {b : Vars} {k : String}
    (h : k ≠ p.1) : varsGet (p :: b) k = varsGet b k := by
  unfold varsGet
  rw [List.find?_cons_of_neg _ (by simpa using fun hh => h hh.symm)]

theorem varsGet_cons_self {p : String × String} {b : Vars} :
    varsGet (p :: b) p.1 = some p.2 := by
  unfold varsGet
  rw [List.find?_cons_of_pos _ (by simp)]
  rfl

theorem varsGet_extend (b : Vars) (hb : varsNodupKeys b) (a : Vars) (k : String) :
    varsGet (varsExtend a b) k =
      match varsGet b k with
      | some v => some v
      | none => varsGet a k := by
  induction b generalizing a with
  | nil => simp [varsExtend, varsGet]
  | cons p b ih =>
    obtain ⟨hp, hb'⟩ := varsNodupKeys_cons hb
    rw [varsExtend_cons, ih hb']
    by_cases hk : k = p.1
    · rw [hk, (varsGet_eq_none_iff b p.1).mpr hp, varsGet_cons_self, varsGet_insert_self]
    · rw [varsGet_cons_ne hk]
      cases hbk : varsGet b k
      · simp only
        exact varsGet_insert_ne a p.1 p.2 k hk
      · rfl

theorem varsKeys_cons (p : String × String) (b : Vars) :
    varsKeys (p :: b) = p.1 :: varsKeys b := rfl

theorem varsGet_extend_not_mem (b : Vars) (a : Vars) (k : String)
    (hk : k ∉ varsKeys b) : varsGet (varsExtend a b) k = varsGet a k := by
  induction b generalizing a with
  | nil => rfl
  | cons p b ih =>
    rw [varsKeys_cons, List.mem_cons, not_or] at hk
    rw [varsExtend_cons, ih (varsInsert a p.1 p.2) hk.2]
    exact varsGet_insert_ne a p.1 p.2 k hk.1

theorem mem_keys_insert {m : Vars} {k v k' : String}
    (h : k' ∈ varsKeys (varsInsert m k v)) : k' = k ∨ k' ∈ varsKeys m := by
  simp only [varsKeys, varsInsert, List.map_cons, List.mem_cons] at h
  rcases h with h | h
  · exact Or.inl h
  · right
    obtain ⟨p, hp, hpk⟩ := List.mem_map.mp h
    exact List.mem_map.mpr ⟨p, (List.mem_filter.mp hp).1, hpk⟩

theorem mem_keys_extend {b a : Vars} {k : String}
    (h : k ∈ varsKeys (varsExtend a b)) : k ∈ varsKeys a ∨ k ∈ varsKeys b := by
  induction b generalizing a with
  | nil => exact Or.inl h
  | cons p b ih =>
    rw [varsExtend_cons] at h
    rcases ih h with h' | h'
    · rcases mem_keys_insert h' with h'' | h''
      · exact Or.inr (by rw [varsKeys_cons, List.mem_cons]; exact Or.inl h'')
      · exact Or.inl h''
    · exact Or.inr (by rw [varsKeys_cons, List.mem_cons]; exact Or.inr h')

/-! ## Claim theorems -/

/-- C1: for the raw record `{CreateDate: 2023:09:08 18:56:54, FileName:
IMG_9876.JPG, Model: iPhone 14}`, deriving variables, overlaying the raw
entries on top and formatting `"{y}{m}{D}_{t}_{T2}_{r}.{e}"` produces exactly
`"230908_185654_iPhone 14_9876.JPG"`. -/
theorem c1_end_to_end_format :
    format_filename "{y}{m}{D}_{t}_{T2}_{r}.{e}"
        (varsExtend (extend_vars exifRecordC1) exifRecordC1)
      = some "230908_185654_iPhone 14_9876.JPG" := by
  decide

/-- C4: deriving date/time variables from `"2023:09:08 18:56:54"` yields a
mapping holding exactly Y=2023, y=23, m=09, D=08, t=185654, H=18, h=06, M=56,
S=54, W=36, a=Fri (listed here in the model's insertion-reversed order). -/
theorem c4_derived_datetime_vars :
    create_vars_from_create_date "2023:09:08 18:56:54" =
      [("a", "Fri"), ("W", "36"), ("S", "54"), ("M", "56"), ("h", "06"),
       ("H", "18"), ("t", "185654"), ("D", "08"), ("m", "09"), ("y", "23"),
       ("Y", "2023")] := by
  decide

/-- C5: the code renders `y` with `(year % 100).to_string()` and no zero
padding, so the timestamp `"2005:01:02 03:04:05"` (year 2005) yields
`y = "5"`, a single digit, where the claim (and the source's own comment
`2-digit year`) require `"05"`. -/
theorem c5_y_not_zero_padded :
    varsGet (create_vars_from_create_date "2005:01:02 03:04:05") "y" = some "5"
      ∧ "5" ≠ "05" := by
  decide

/-- C6 counterexample: at a midnight timestamp the derived `h` is `"12"`
(chrono's 1..12 hour), not `"00"` as the claim states. -/
theorem c6_midnight_h_is_12 :
    varsGet (create_vars_from_create_date "2023:09:08 00:56:54") "h" = some "12"
      ∧ varsGet (create_vars_from_create_date "2023:09:08 00:56:54") "h" ≠ some "00" := by
  decide

/-- The `h` entry of the date-variable insertion chain. -/
theorem buildDateVars_get_h (dt : NaiveDateTime) :
    varsGet (buildDateVars dt) "h" = some (pad2 (hour12 dt.hour)) := by
  unfold buildDateVars
  rw [varsGet_insert_ne _ _ _ _ (by decide), varsGet_insert_ne _ _ _ _ (by decide),
    varsGet_insert_ne _ _ _ _ (by decide), varsGet_insert_ne _ _ _ _ (by decide),
    varsGet_insert_self]

/-- C6 (amended): for every timestamp that parses, `h` is the two-character
zero-padded rendering of a 12-hour-clock value in 1..12 congruent to the hour
modulo 12, and at a 24-hour hour of 0 (midnight) that value renders `"12"`,
not `"00"`. -/
theorem c6_hour12_two_digit :
    ∀ (s : String) (dt : NaiveDateTime),
      parse_datetime_from_string s = some dt →
      ∃ hh : Nat, 1 ≤ hh ∧ hh ≤ 12 ∧ hh % 12 = dt.hour % 12 ∧
        varsGet (create_vars_from_create_date s) "h" = some (pad2 hh) ∧
        (pad2 hh).length = 2 ∧
        (dt.hour = 0 → pad2 hh = "12") := by
  intro s dt h
  have hcv : create_vars_from_create_date s = buildDateVars dt := by
    unfold create_vars_from_create_date
    rw [h]
  have hb1 : 1 ≤ hour12 dt.hour ∧ hour12 dt.hour ≤ 12 := by
    unfold hour12
    split
    · omega
    · have := Nat.mod_lt dt.hour (show 0 < 12 by omega)
      omega
  refine ⟨hour12 dt.hour, hb1.1, hb1.2, ?_, ?_, ?_, ?_⟩
  · unfold hour12
    split
    · omega
    · omega
  · rw [hcv, buildDateVars_get_h]
  · have h1 := hb1.1
    have h2 := hb1.2
    interval_cases h : hour12 dt.hour <;> decide
  · intro h0
    rw [h0]
    decide

/-- C6 witness: the amended statement at the concrete parse of
`"2023:09:08 18:56:54"`. -/
theorem c6_hour12_witness :
    ∃ hh : Nat, 1 ≤ hh ∧ hh ≤ 12 ∧
      hh % 12 = (NaiveDateTime.mk 2023 9 8 18 56 54).hour % 12 ∧
      varsGet (create_vars_from_create_date "2023:09:08 18:56:54") "h"
        = some (pad2 hh) ∧
      (pad2 hh).length = 2 ∧
      ((NaiveDateTime.mk 2023 9 8 18 56 54).hour = 0 → pad2 hh = "12") :=
  c6_hour12_two_digit "2023:09:08 18:56:54" (NaiveDateTime.mk 2023 9 8 18 56 54)
    (by decide)

/-- C7: the offset-less format is attempted first and wins when it parses; on
its failure the offset format is attempted and the derived fields are the
literal (naive local) clock fields of the string, the offset being consumed;
when both fail the parse is `none` and the derived date/time set is empty (no
error escalates). -/
theorem c7_parse_fallback_chain :
    (∀ (s : String) (dt : NaiveDateTime),
        parseNaiveNoOffset s = some dt → parse_datetime_from_string s = some dt) ∧
    (∀ (s : String) (dt : NaiveDateTime) (off : Int),
        parseNaiveNoOffset s = none → parseWithOffset s = some (dt, off) →
        parse_datetime_from_string s = some dt) ∧
    (∀ s : String, parseNaiveNoOffset s = none → parseWithOffset s = none →
        parse_datetime_from_string s = none ∧ create_vars_from_create_date s = []) := by
  refine ⟨?_, ?_, ?_⟩
  · intro s dt h
    unfold parse_datetime_from_string
    rw [h]
  · intro s dt off h1 h2
    unfold parse_datetime_from_string
    rw [h1, h2]
  · intro s h1 h2
    have hp : parse_datetime_from_string s = none := by
      unfold parse_datetime_from_string
      rw [h1, h2]
    refine ⟨hp, ?_⟩
    unfold create_vars_from_create_date
    rw [hp]

/-- C7 witness: the fallback branch at `"2023:09:08 18:56:54+0200"`: the
offset-less parse fails, the offset parse consumes `+0200` and the result
keeps the written clock fields. -/
theorem c7_fallback_witness :
    parseNaiveNoOffset "2023:09:08 18:56:54+0200" = none ∧
    parseWithOffset "2023:09:08 18:56:54+0200"
      = some (NaiveDateTime.mk 2023 9 8 18 56 54, 7200) ∧
    parse_datetime_from_string "2023:09:08 18:56:54+0200"
      = some (NaiveDateTime.mk 2023 9 8 18 56 54) :=
  ⟨by decide, by decide,
    c7_parse_fallback_chain.2.1 "2023:09:08 18:56:54+0200"
      (NaiveDateTime.mk 2023 9 8 18 56 54) 7200 (by decide) (by decide)⟩

/-- C3: merging overlays every raw entry on top of the derived set — on any
key the raw record holds, the merged mapping gives the raw value; on any key
the raw record lacks, the merged mapping gives the derived lookup (so
derived-only keys keep their derived value and raw-only keys their raw
value). -/
theorem c3_merge_precedence :
    ∀ raw : Vars, varsNodupKeys raw →
      (∀ k, (varsGet raw k).isSome →
        varsGet (varsExtend (extend_vars raw) raw) k = varsGet raw k) ∧
      (∀ k, varsGet raw k = none →
        varsGet (varsExtend (extend_vars raw) raw) k = varsGet (extend_vars raw) k) := by
  intro raw hnd
  constructor
  · intro k hk
    rw [varsGet_extend raw hnd (extend_vars raw) k]
    cases h : varsGet raw k
    · rw [h] at hk
      simp at hk
    · rfl
  · intro k hk
    rw [varsGet_extend raw hnd (extend_vars raw) k, hk]

/-- C3 witness: a record whose raw `Y` collides with the derived `Y`; the
merged mapping keeps the raw value. -/
theorem c3_merge_witness :
    (varsGet [("Y", "RAW"), ("CreateDate", "2023:09:08 18:56:54")] "Y").isSome
      ∧ varsGet
          (varsExtend
            (extend_vars [("Y", "RAW"), ("CreateDate", "2023:09:08 18:56:54")])
            [("Y", "RAW"), ("CreateDate", "2023:09:08 18:56:54")]) "Y"
        = varsGet [("Y", "RAW"), ("CreateDate", "2023:09:08 18:56:54")] "Y" :=
  ⟨by decide,
    (c3_merge_precedence [("Y", "RAW"), ("CreateDate", "2023:09:08 18:56:54")]
      (by decide)).1 "Y" (by decide)⟩

/-- The key list of the date-variable insertion chain. -/
theorem keys_buildDateVars (dt : NaiveDateTime) :
    varsKeys (buildDateVars dt) =
      ["a", "W", "S", "M", "h", "H", "t", "D", "m", "y", "Y"] := by
  simp [buildDateVars, varsInsert, varsKeys]

/-- Keys derived from a timestamp lie among the fixed short codes. -/
theorem keys_date_subset (s : String) :
    ∀ k, k ∈ varsKeys (create_vars_from_create_date s) → k ∈ allowedDerivedKeys := by
  intro k hk
  unfold create_vars_from_create_date at hk
  cases hp : parse_datetime_from_string s with
  | none =>
    rw [hp] at hk
    simp [varsKeys] at hk
  | some dt =>
    rw [hp] at hk
    rw [keys_buildDateVars] at hk
    exact (by decide :
      ∀ x ∈ (["a", "W", "S", "M", "h", "H", "t", "D", "m", "y", "Y"] : List String),
        x ∈ allowedDerivedKeys) k hk

/-- The key list of the filename-variable derivation: empty or `e, r, f`. -/
theorem keys_create_vars_from_filename (s : String) :
    varsKeys (create_vars_from_filename s) = [] ∨
      varsKeys (create_vars_from_filename s) = ["e", "r", "f"] := by
  unfold create_vars_from_filename
  cases hm : findMatch s.data with
  | none => exact Or.inl rfl
  | some m =>
    obtain ⟨f, r, e⟩ := m
    right
    simp [varsInsert, varsKeys]

/-- Keys derived from a filename lie among the fixed short codes. -/
theorem keys_file_subset (s : String) :
    ∀ k, k ∈ varsKeys (create_vars_from_filename s) → k ∈ allowedDerivedKeys := by
  intro k hk
  rcases keys_create_vars_from_filename s with h | h <;> rw [h] at hk
  · simp at hk
  · exact (by decide :
      ∀ x ∈ (["e", "r", "f"] : List String), x ∈ allowedDerivedKeys) k hk

theorem t2_not_in_date_keys (s : String) :
    "T2" ∉ varsKeys (create_vars_from_create_date s) := by
  intro h
  unfold create_vars_from_create_date at h
  cases hp : parse_datetime_from_string s with
  | none => rw [hp] at h; simp [varsKeys] at h
  | some dt => rw [hp, keys_buildDateVars] at h; revert h; decide

theorem t2_not_in_file_keys (s : String) :
    "T2" ∉ varsKeys (create_vars_from_filename s) := by
  intro h
  rcases keys_create_vars_from_filename s with h' | h' <;> rw [h'] at h
  · simp at h
  · revert h; decide

theorem keys_dateStep_subset (record : Vars) :
    ∀ k, k ∈ varsKeys (dateStep record) → k ∈ allowedDerivedKeys := by
  intro k hk
  unfold dateStep at hk
  cases h1 : varsGet record "CreateDate" with
  | none => rw [h1] at hk; simp [varsKeys] at hk
  | some cd =>
    rw [h1] at hk
    rcases mem_keys_extend hk with h | h
    · simp [varsKeys] at h
    · exact keys_date_subset cd k h

theorem keys_fileStep_subset (record : Vars) :
    ∀ k, k ∈ varsKeys (fileStep record) → k ∈ allowedDerivedKeys := by
  intro k hk
  unfold fileStep at hk
  cases h2 : varsGet record "FileName" with
  | none => rw [h2] at hk; exact keys_dateStep_subset record k hk
  | some fn =>
    rw [h2] at hk
    rcases mem_keys_extend hk with h | h
    · exact keys_dateStep_subset record k h
    · exact keys_file_subset fn k h

theorem t2_get_dateStep (record : Vars) : varsGet (dateStep record) "T2" = none := by
  unfold dateStep
  cases h1 : varsGet record "CreateDate" with
  | none => rfl
  | some cd => exact ((varsGet_extend_not_mem _ _ _ (t2_not_in_date_keys cd)).trans rfl)

theorem t2_get_fileStep (record : Vars) : varsGet (fileStep record) "T2" = none := by
  unfold fileStep
  cases h2 : varsGet record "FileName" with
  | none => exact t2_get_dateStep record
  | some fn =>
    exact ((varsGet_extend_not_mem _ _ _ (t2_not_in_file_keys fn)).trans
      (t2_get_dateStep record))

/-- C10: every key the derivation produces is one of the fifteen fixed short
codes, and `T2` is bound exactly when the raw record has a `Model` entry,
carrying its value verbatim. -/
theorem c10_derived_key_invariant :
    ∀ record : Vars,
      (∀ k, k ∈ varsKeys (extend_vars record) → k ∈ allowedDerivedKeys) ∧
      varsGet (extend_vars record) "T2" = varsGet record "Model" := by
  intro record
  constructor
  · intro k hk
    unfold extend_vars at hk
    cases h3 : varsGet record "Model" with
    | none =>
      rw [h3] at hk
      exact keys_fileStep_subset record k hk
    | some model =>
      rw [h3] at hk
      rcases mem_keys_insert hk with h | h
      · rw [h]; decide
      · exact keys_fileStep_subset record k h
  · unfold extend_vars
    cases h3 : varsGet record "Model" with
    | none => exact t2_get_fileStep record
    | some model => exact varsGet_insert_self _ _ _

/-- C10 witness: the invariant applied to the concrete test record. -/
theorem c10_witness :
    "y" ∈ allowedDerivedKeys ∧
      varsGet (extend_vars exifRecordC1) "T2" = varsGet exifRecordC1 "Model" :=
  ⟨(c10_derived_key_invariant exifRecordC1).1 "y" (by decide),
    (c10_derived_key_invariant exifRecordC1).2⟩

/-- Elements kept by `takeWhile` satisfy the predicate. -/
theorem all_takeWhile {α : Type} (p : α → Bool) (l : List α) :
    (l.takeWhile p).all p = true := by
  induction l with
  | nil => rfl
  | cons a t ih =>
    rw [List.takeWhile_cons]
    split
    · simpa [*]
    · rfl

/-- What a successful `tailMatch` guarantees: the digit-run group is all
digits, the extension group is nonempty and alphanumeric. -/
theorem tailMatch_spec {l r e : List Char} (h : tailMatch l = some (r, e)) :
    r.all Char.isDigit = true ∧ e ≠ [] ∧ e.all isAlnumAscii = true := by
  unfold tailMatch at h
  cases hd : l.dropWhile Char.isDigit with
  | nil =>
    rw [hd] at h
    exact absurd h (by simp)
  | cons d rest2 =>
    rw [hd] at h
    have h2 : (if d = '.' then
        if (rest2.takeWhile isAlnumAscii).isEmpty = true then none
        else some (l.takeWhile Char.isDigit, rest2.takeWhile isAlnumAscii)
      else none) = some (r, e) := h
    by_cases hdot : d = '.'
    · rw [if_pos hdot] at h2
      by_cases hemp : (rest2.takeWhile isAlnumAscii).isEmpty = true
      · rw [if_pos hemp] at h2
        exact absurd h2 (by simp)
      · rw [if_neg hemp] at h2
        injection h2 with h'
        injection h' with h1 h3
        subst h1
        subst h3
        refine ⟨all_takeWhile _ _, ?_, all_takeWhile _ _⟩
        simpa [List.isEmpty_iff] using hemp
    · rw [if_neg hdot] at h2
      exact absurd h2 (by simp)

/-- What a successful anchored match guarantees: the base-name group is
nonempty and ends in a non-digit, and the tail groups are as in
`tailMatch_spec`. -/
theorem tryAt_spec :
    ∀ l f r e, tryAt l = some (f, r, e) →
      f ≠ [] ∧ (∃ c, f.getLast? = some c ∧ c.isDigit = false) ∧
      r.all Char.isDigit = true ∧ e ≠ [] ∧ e.all isAlnumAscii = true := by
  intro l
  induction l with
  | nil =>
    intro f r e h
    exact absurd h (by simp [tryAt])
  | cons c rest ih =>
    intro f r e h
    unfold tryAt at h
    cases hin : (if c = '\n' then none else tryAt rest) with
    | some m =>
      rw [hin] at h
      obtain ⟨f', r', e'⟩ := m
      injection h with h'
      injection h' with h1 h'
      injection h' with h2 h3
      have htry : tryAt rest = some (f', r', e') := by
        by_cases hc : c = '\n'
        · rw [hc] at hin; simp at hin
        · simpa [hc] using hin
      obtain ⟨hf', hlast', hr', he', hall'⟩ := ih f' r' e' htry
      subst h1
      subst h2
      subst h3
      refine ⟨by simp, ?_, hr', he', hall'⟩
      obtain ⟨c', hc1, hc2⟩ := hlast'
      obtain ⟨x, xs, hfx⟩ : ∃ x xs, f' = x :: xs := by
        cases f' with
        | nil => exact absurd rfl hf'
        | cons x xs => exact ⟨x, xs, rfl⟩
      refine ⟨c', ?_, hc2⟩
      rw [hfx] at hc1 ⊢
      rw [List.getLast?_cons_cons]
      exact hc1
    | none =>
      rw [hin] at h
      by_cases hcd : c.isDigit = true
      · rw [if_pos hcd] at h
        exact absurd h (by simp)
      · rw [if_neg hcd] at h
        cases htm : tailMatch rest with
        | none => rw [htm] at h; exact absurd h (by simp)
        | some p =>
          obtain ⟨r', e'⟩ := p
          rw [htm] at h
          simp only [Option.map_some'] at h
          injection h with h'
          injection h' with h1 h'
          injection h' with h2 h3
          subst h1
          subst h2
          subst h3
          obtain ⟨hr', he', hall'⟩ := tailMatch_spec htm
          refine ⟨by simp, ⟨c, by simp, ?_⟩, hr', he', hall'⟩
          simpa using hcd

/-- What a successful leftmost match guarantees. -/
theorem findMatch_spec :
    ∀ l f r e, findMatch l = some (f, r, e) →
      f ≠ [] ∧ (∃ c, f.getLast? = some c ∧ c.isDigit = false) ∧
      r.all Char.isDigit = true ∧ e ≠ [] ∧ e.all isAlnumAscii = true := by
  intro l
  induction l with
  | nil =>
    intro f r e h
    exact absurd h (by simp [findMatch])
  | cons c rest ih =>
    intro f r e h
    unfold findMatch at h
    cases ht : tryAt (c :: rest) with
    | some m =>
      rw [ht] at h
      exact tryAt_spec _ f r e (ht.trans h)
    | none =>
      rw [ht] at h
      exact ih f r e h

/-- C8: filename derivation yields no variables when the regex has no match;
on a match it yields exactly `f` (nonempty, ending in a non-digit), `r` (a
possibly empty digit run) and `e` (a nonempty alphanumeric extension); on
`IMG_1234.JPG` it yields `f=IMG_, r=1234, e=JPG`, an empty digit run leaves
`r` bound to the empty string, and a shapeless name yields nothing. -/
theorem c8_filename_decomposition :
    (∀ s : String, findMatch s.data = none → create_vars_from_filename s = []) ∧
    (∀ (s : String) (f r e : List Char),
      findMatch s.data = some (f, r, e) →
      create_vars_from_filename s =
        [("e", String.mk e), ("r", String.mk r), ("f", String.mk f)] ∧
      f ≠ [] ∧ (∃ c, f.getLast? = some c ∧ c.isDigit = false) ∧
      r.all Char.isDigit = true ∧ e ≠ [] ∧ e.all isAlnumAscii = true) ∧
    create_vars_from_filename "IMG_1234.JPG" =
      [("e", "JPG"), ("r", "1234"), ("f", "IMG_")] ∧
    create_vars_from_filename "IMG_.JPG" =
      [("e", "JPG"), ("r", ""), ("f", "IMG_")] ∧
    create_vars_from_filename "README" = [] := by
  refine ⟨?_, ?_, by decide, by decide, by decide⟩
  · intro s h
    unfold create_vars_from_filename
    rw [h]
  · intro s f r e h
    refine ⟨?_, findMatch_spec s.data f r e h⟩
    unfold create_vars_from_filename
    rw [h]
    simp [varsInsert]

/-- C8 witness: the match of `IMG_1234.JPG` and its guarantees. -/
theorem c8_filename_witness :
    create_vars_from_filename "IMG_1234.JPG" =
      [("e", String.mk ['J', 'P', 'G']), ("r", String.mk ['1', '2', '3', '4']),
       ("f", String.mk ['I', 'M', 'G', '_'])] ∧
    ['I', 'M', 'G', '_'] ≠ ([] : List Char) ∧
    (∃ c, (['I', 'M', 'G', '_'] : List Char).getLast? = some c ∧ c.isDigit = false) ∧
    (['1', '2', '3', '4'] : List Char).all Char.isDigit = true ∧
    ['J', 'P', 'G'] ≠ ([] : List Char) ∧
    (['J', 'P', 'G'] : List Char).all isAlnumAscii = true :=
  c8_filename_decomposition.2.1 "IMG_1234.JPG"
    ['I', 'M', 'G', '_'] ['1', '2', '3', '4'] ['J', 'P', 'G'] (by decide)

/-- Inserting a fresh key prepends the binding and keeps the rest. -/
theorem varsInsert_fresh {m : Vars} {k v : String} (hk : k ∉ varsKeys m) :
    varsInsert m k v = (k, v) :: m := by
  unfold varsInsert
  congr 1
  apply List.filter_eq_self.mpr
  intro p hp
  simp only [Bool.not_eq_true', beq_eq_false_iff_ne]
  intro hpk
  exact hk (List.mem_map.mpr ⟨p, hp, hpk⟩)

/-- The line-insertion fold of `read_exif_file`: when every line splits and
all keys (accumulator and lines) are pairwise distinct, each line contributes
exactly one entry, bound to its split value, and other keys are untouched. -/
theorem exif_foldl_spec :
    ∀ (ls : List String) (acc : Vars),
      (∀ l ∈ ls, (split_exif_line l).isSome) →
      (varsKeys acc ++ ls.map lineKey).Nodup →
      (ls.foldl (fun vars line =>
          match split_exif_line line with
          | some kv => varsInsert vars kv.1 kv.2
          | none => vars) acc).length = acc.length + ls.length ∧
      (∀ l ∈ ls,
        varsGet (ls.foldl (fun vars line =>
          match split_exif_line line with
          | some kv => varsInsert vars kv.1 kv.2
          | none => vars) acc) (lineKey l) = some (lineVal l)) ∧
      (∀ k, k ∉ ls.map lineKey →
        varsGet (ls.foldl (fun vars line =>
          match split_exif_line line with
          | some kv => varsInsert vars kv.1 kv.2
          | none => vars) acc) k = varsGet acc k) := by
  intro ls
  induction ls with
  | nil =>
    intro acc hsome hnd
    refine ⟨by simp, by simp, fun k _ => rfl⟩
  | cons l ls ih =>
    intro acc hsome hnd
    obtain ⟨kv, hkv⟩ := Option.isSome_iff_exists.mp (hsome l (by simp))
    have hkey : lineKey l = kv.1 := by
      unfold lineKey
      rw [hkv]
      rfl
    have hval : lineVal l = kv.2 := by
      unfold lineVal
      rw [hkv]
      rfl
    rw [List.map_cons, hkey] at hnd
    have hnd2 : (kv.1 :: (varsKeys acc ++ ls.map lineKey)).Nodup :=
      (List.perm_middle).nodup hnd
    have hk_notin : kv.1 ∉ varsKeys acc ++ ls.map lineKey :=
      (List.nodup_cons.mp hnd2).1
    have hk_acc : kv.1 ∉ varsKeys acc := fun hc =>
      hk_notin (List.mem_append.mpr (Or.inl hc))
    have hk_ls : kv.1 ∉ ls.map lineKey := fun hc =>
      hk_notin (List.mem_append.mpr (Or.inr hc))
    have hnd3 : (varsKeys (varsInsert acc kv.1 kv.2) ++ ls.map lineKey).Nodup := by
      rw [varsInsert_fresh hk_acc, varsKeys_cons]
      exact hnd2
    have hstep : (l :: ls).foldl (fun vars line =>
        match split_exif_line line with
        | some kv => varsInsert vars kv.1 kv.2
        | none => vars) acc
      = ls.foldl (fun vars line =>
        match split_exif_line line with
        | some kv => varsInsert vars kv.1 kv.2
        | none => vars) (varsInsert acc kv.1 kv.2) := by
      rw [List.foldl_cons, hkv]
    obtain ⟨ihlen, ihget, ihrest⟩ :=
      ih (varsInsert acc kv.1 kv.2) (fun x hx => hsome x (by simp [hx])) hnd3
    refine ⟨?_, ?_, ?_⟩
    · rw [hstep, ihlen, varsInsert_fresh hk_acc]
      simp
      omega
    · intro x hx
      rcases List.mem_cons.mp hx with rfl | hx'
      · rw [hstep, hkey, hval, ihrest kv.1 hk_ls, varsGet_insert_self]
      · rw [hstep]
        exact ihget x hx'
    · intro k hk
      rw [List.map_cons, hkey, List.mem_cons, not_or] at hk
      rw [hstep, ihrest k hk.2]
      exact varsGet_insert_ne acc kv.1 kv.2 k hk.1

/-- C9 counterexample: in `"a:1\na:2"` every line contains a colon, there are
two lines, yet the parsed record has a single entry (the duplicate key is
overwritten), so the record does not hold one entry per line. -/
theorem c9_duplicate_key_counterexample :
    (read_lines "a:1\na:2").length = 2 ∧
    (∀ line ∈ read_lines "a:1\na:2", (split_exif_line line).isSome) ∧
    (read_exif_file "a:1\na:2").length = 1 := by
  decide

/-- C9 (amended): for every metadata text in which every line contains a
colon and the trimmed keys of the lines are pairwise distinct, the parsed
record holds exactly one entry per line, keyed by the trimmed text before the
first colon of the line with the trimmed text after that first colon as value
(colons inside the value are kept). -/
theorem c9_line_parsing :
    ∀ content : String,
      (∀ line ∈ read_lines content, (split_exif_line line).isSome) →
      ((read_lines content).map lineKey).Nodup →
      (read_exif_file content).length = (read_lines content).length ∧
      (∀ line ∈ read_lines content,
        varsGet (read_exif_file content) (lineKey line) = some (lineVal line)) ∧
      (∀ line ∈ read_lines content, ∃ pre post,
        splitAtFirstColon line.data = some (pre, post) ∧
        lineKey line = rustTrim (String.mk pre) ∧
        lineVal line = rustTrim (String.mk post)) := by
  intro content hall hnd
  have h := exif_foldl_spec (read_lines content) [] hall (by simpa [varsKeys] using hnd)
  refine ⟨by simpa using h.1, h.2.1, ?_⟩
  intro line hline
  obtain ⟨kv, hkv⟩ := Option.isSome_iff_exists.mp (hall line hline)
  unfold split_exif_line at hkv
  cases hsp : splitAtFirstColon line.data with
  | none => rw [hsp] at hkv; exact absurd hkv (by simp)
  | some p =>
    rw [hsp] at hkv
    refine ⟨p.1, p.2, rfl, ?_, ?_⟩
    · unfold lineKey split_exif_line
      rw [hsp]
      rfl
    · unfold lineVal split_exif_line
      rw [hsp]
      rfl

/-- C9 witness: the amended statement on a concrete two-line text with
distinct keys. -/
theorem c9_line_parsing_witness :
    (read_exif_file "a:1\nb:2").length = (read_lines "a:1\nb:2").length :=
  (c9_line_parsing "a:1\nb:2" (by decide) (by decide)).1

/-- The scan of `strfmtGo`, `patternOkLoop` and `refNamesLoop` in step: on a
well-formed remainder, formatting succeeds exactly when every referenced name
resolves, and a missing referenced name yields a key error naming a missing
referenced name (never any output). -/
theorem strfmt_scan_spec (vars : Vars) :
    ∀ (l : List Char) (mode : Option (List Char)),
      patternOkLoop l mode = true →
      ((∀ n ∈ refNamesLoop l mode, (varsGet vars n).isSome) →
        ∃ out, strfmtGo vars l mode = .ok out) ∧
      ((∃ n ∈ refNamesLoop l mode, varsGet vars n = none) →
        ∃ m ∈ refNamesLoop l mode, varsGet vars m = none ∧
          strfmtGo vars l mode = .error (.keyError m)) := by
  intro l mode
  induction l, mode using strfmtGo.induct vars with
  | case1 =>
    intro _
    refine ⟨fun _ => ⟨[], rfl⟩, ?_⟩
    rintro ⟨n, hn, -⟩
    exact absurd hn (List.not_mem_nil n)
  | case2 val =>
    intro hok
    exact Bool.noConfusion hok
  | case3 rest ih =>
    intro hok
    cases rest with
    | nil => exact ih hok
    | cons r rs => exact ih hok
  | case4 hne =>
    intro hok
    exact Bool.noConfusion hok
  | case5 rest hne ih =>
    intro hok
    obtain ⟨ha, hb⟩ := ih hok
    constructor
    · intro hall
      obtain ⟨out, ho⟩ := ha hall
      exact ⟨rbrace :: out,
        show (strfmtGo vars rest none).map (fun out => rbrace :: out) = _ by
          rw [ho]; rfl⟩
    · intro hex
      obtain ⟨m, hm, hmn, he⟩ := hb hex
      exact ⟨m, hm, hmn,
        show (strfmtGo vars rest none).map (fun out => rbrace :: out) = _ by
          rw [he]; rfl⟩
  | case6 c rest hc hne =>
    intro hok
    rw [show patternOkLoop (rbrace :: c :: rest) none = false by
      simp [patternOkLoop, hne, hc]] at hok
    exact Bool.noConfusion hok
  | case7 c rest hc1 hc2 ih =>
    intro hok
    cases rest with
    | nil =>
      have hok' : patternOkLoop [] none = true := by
        rw [show patternOkLoop [c] none = patternOkLoop [] none by
          simp [patternOkLoop, hc1, hc2]] at hok
        exact hok
      have e1 : strfmtGo vars [c] none
          = (strfmtGo vars [] none).map (fun out => c :: out) := by
        simp [strfmtGo, hc1, hc2]
      have e2 : refNamesLoop [c] none = refNamesLoop [] none := by
        simp [refNamesLoop, hc1, hc2]
      rw [e1, e2]
      obtain ⟨ha, hb⟩ := ih hok'
      constructor
      · intro hall
        obtain ⟨out, ho⟩ := ha hall
        exact ⟨c :: out, by rw [ho]; rfl⟩
      · intro hex
        obtain ⟨m, hm, hmn, he⟩ := hb hex
        exact ⟨m, hm, hmn, by rw [he]; rfl⟩
    | cons d rs =>
      have hok' : patternOkLoop (d :: rs) none = true := by
        rw [show patternOkLoop (c :: d :: rs) none = patternOkLoop (d :: rs) none by
          simp [patternOkLoop, hc1, hc2]] at hok
        exact hok
      have e1 : strfmtGo vars (c :: d :: rs) none
          = (strfmtGo vars (d :: rs) none).map (fun out => c :: out) := by
        simp [strfmtGo, hc1, hc2]
      have e2 : refNamesLoop (c :: d :: rs) none = refNamesLoop (d :: rs) none := by
        simp [refNamesLoop, hc1, hc2]
      rw [e1, e2]
      obtain ⟨ha, hb⟩ := ih hok'
      constructor
      · intro hall
        obtain ⟨out, ho⟩ := ha hall
        exact ⟨c :: out, by rw [ho]; rfl⟩
      · intro hex
        obtain ⟨m, hm, hmn, he⟩ := hb hex
        exact ⟨m, hm, hmn, by rw [he]; rfl⟩
  | case8 rest val v hget ih =>
    intro hok
    obtain ⟨ha, hb⟩ := ih hok
    have e1 : strfmtGo vars (rbrace :: rest) (some val)
        = (strfmtGo vars rest none).map (fun out => v.data ++ out) := by
      simp [strfmtGo, hget]
    have e2 : refNamesLoop (rbrace :: rest) (some val)
        = String.mk val.reverse :: refNamesLoop rest none := rfl
    rw [e1, e2]
    constructor
    · intro hall
      obtain ⟨out, ho⟩ := ha (fun n hn => hall n (by simp [hn]))
      exact ⟨v.data ++ out, by rw [ho]; rfl⟩
    · rintro ⟨n, hn, hnone⟩
      rcases List.mem_cons.mp hn with rfl | hn'
      · rw [hget] at hnone
        exact absurd hnone (by simp)
      · obtain ⟨m, hm, hmn, he⟩ := hb ⟨n, hn', hnone⟩
        exact ⟨m, by simp [hm], hmn, by rw [he]; rfl⟩
  | case9 rest val hget =>
    intro hok
    have e1 : strfmtGo vars (rbrace :: rest) (some val)
        = .error (.keyError (String.mk val.reverse)) := by
      simp [strfmtGo, hget]
    have e2 : refNamesLoop (rbrace :: rest) (some val)
        = String.mk val.reverse :: refNamesLoop rest none := rfl
    rw [e1, e2]
    constructor
    · intro hall
      have hs := hall (String.mk val.reverse) (by simp)
      rw [hget] at hs
      exact absurd hs (by simp)
    · intro _
      exact ⟨String.mk val.reverse, by simp, hget, rfl⟩
  | case10 rest hne ih =>
    intro hok
    obtain ⟨ha, hb⟩ := ih hok
    constructor
    · intro hall
      obtain ⟨out, ho⟩ := ha hall
      exact ⟨lbrace :: out,
        show (strfmtGo vars rest none).map (fun out => lbrace :: out) = _ by
          rw [ho]; rfl⟩
    · intro hex
      obtain ⟨m, hm, hmn, he⟩ := hb hex
      exact ⟨m, hm, hmn,
        show (strfmtGo vars rest none).map (fun out => lbrace :: out) = _ by
          rw [he]; rfl⟩
  | case11 rest x hx hne ih =>
    intro hok
    obtain ⟨a, as, rfl⟩ : ∃ a as, x = a :: as := by
      cases x with
      | nil => exact (hx rfl).elim
      | cons a as => exact ⟨a, as, rfl⟩
    exact ih hok
  | case12 c rest val hc1 hc2 ih =>
    intro hok
    have hok' : patternOkLoop rest (some (c :: val)) = true := by
      rw [show patternOkLoop (c :: rest) (some val)
          = patternOkLoop rest (some (c :: val)) by
        simp [patternOkLoop, hc1, hc2]] at hok
      exact hok
    have e1 : strfmtGo vars (c :: rest) (some val)
        = strfmtGo vars rest (some (c :: val)) := by
      simp [strfmtGo, hc1, hc2]
    have e2 : refNamesLoop (c :: rest) (some val)
        = refNamesLoop rest (some (c :: val)) := by
      simp [refNamesLoop, hc1, hc2]
    rw [e1, e2]
    exact ih hok'

/-- C2 counterexample: the pattern consisting of a single opening brace
references no placeholder at all — so every referenced placeholder is present
in any mapping, in particular the empty one — yet formatting fails with an
invalid-pattern error instead of succeeding, refuting the claim's success
direction as stated over every pattern string. -/
theorem c2_stray_brace_counterexample :
    refNames (String.data "\x7b") = [] ∧
    (∀ n ∈ refNames (String.data "\x7b"), (varsGet ([] : Vars) n).isSome) ∧
    strfmt "\x7b" [] = .error .invalid ∧
    ∀ out, strfmt "\x7b" [] ≠ .ok out := by
  refine ⟨rfl, ?_, rfl, ?_⟩
  · intro n hn
    rw [show refNames (String.data "\x7b") = [] from rfl] at hn
    exact absurd hn (List.not_mem_nil n)
  · intro out h
    exact Except.noConfusion h

/-- C2 (amended): over brace-well-formed patterns the formatter, given any
mapping, fails with a key error naming a missing referenced placeholder (and
returns no string, partial or otherwise) whenever some referenced placeholder
is absent, and succeeds whenever every referenced placeholder is present. -/
theorem c2_formatter_missing_key :
    ∀ (pattern : String) (vars : Vars),
      patternOk pattern.data = true →
      ((∃ n ∈ refNames pattern.data, varsGet vars n = none) →
        ∃ m ∈ refNames pattern.data, varsGet vars m = none ∧
          strfmt pattern vars = .error (.keyError m)) ∧
      ((∀ n ∈ refNames pattern.data, (varsGet vars n).isSome) →
        ∃ out, strfmt pattern vars = .ok out) := by
  intro pattern vars hok
  obtain ⟨h1, h2⟩ := strfmt_scan_spec vars pattern.data none hok
  constructor
  · intro hex
    obtain ⟨m, hm, hmn, he⟩ := h2 hex
    refine ⟨m, hm, hmn, ?_⟩
    unfold strfmt
    rw [he]
    rfl
  · intro hall
    obtain ⟨out, ho⟩ := h1 hall
    refine ⟨String.mk out, ?_⟩
    unfold strfmt
    rw [ho]
    rfl

/-- C2 witness: on the well-formed pattern `"{q}"` against a mapping binding
only `y`, the formatter fails with a key error naming `q`. -/
theorem c2_formatter_witness :
    ∃ m ∈ refNames (String.data "{q}"), varsGet [("y", "1")] m = none ∧
      strfmt "{q}" [("y", "1")] = .error (.keyError m) :=
  (c2_formatter_missing_key "{q}" [("y", "1")] (by decide)).1
    ⟨"q", by decide, by decide⟩
